import Mathlib

/-
Verification of the plural feed-forward engine (src/plural/src/manifolds/fc.rs).
Scalars (Rust f64) are idealised as rationals; ndarray matrices are embedded as
dimension-tagged lookup functions.  External collaborators (Substrate,
Activation, Loss, the RNG) are modelled from their spec contracts as explicit
oracles threaded through the engine.
-/

namespace Plural

/-- Embedding of ndarray Array2 of f64: a (rows, cols) shape tag plus an entry
lookup function.  Entries outside the shape are irrelevant. -/
structure Mat where
  r : Nat
  c : Nat
  f : Nat → Nat → ℚ

/-- Embedding of ndarray Array1 of f64. -/
structure VecQ where
  n : Nat
  f : Nat → ℚ

/-- Embedding of ndarray Array2 of usize (the weight index matrix). -/
structure MatN where
  r : Nat
  c : Nat
  f : Nat → Nat → Nat

/-- Embedding of ndarray Array1 of usize (the bias index vector). -/
structure VecN where
  n : Nat
  f : Nat → Nat

def Mat.zeros (r c : Nat) : Mat := ⟨r, c, fun _ _ => 0⟩

def VecQ.zeros (n : Nat) : VecQ := ⟨n, fun _ => 0⟩

/-- ndarray .t(): matrix transpose. -/
def Mat.t (A : Mat) : Mat := ⟨A.c, A.r, fun i j => A.f j i⟩

/-- ndarray .dot(): matrix product, contracting over the left factor's cols. -/
def Mat.dot (A B : Mat) : Mat :=
  ⟨A.r, B.c, fun i j => Finset.sum (Finset.range A.c) (fun k => A.f i k * B.f k j)⟩

/-- ndarray elementwise product (the Rust expression grad_output * d_z). -/
def Mat.hadamard (A B : Mat) : Mat := ⟨A.r, A.c, fun i j => A.f i j * B.f i j⟩

/-- ndarray -= on Array2 (entrywise subtraction). -/
def Mat.sub (A B : Mat) : Mat := ⟨A.r, A.c, fun i j => A.f i j - B.f i j⟩

/-- ndarray + of a (r, c) matrix and a length-c vector, broadcast over rows
(the Rust expression x.dot(&w) + &b). -/
def Mat.addRowVec (A : Mat) (v : VecQ) : Mat := ⟨A.r, A.c, fun i j => A.f i j + v.f j⟩

/-- Apply a scalar function to every entry. -/
def Mat.mapQ (A : Mat) (g : ℚ → ℚ) : Mat := ⟨A.r, A.c, fun i j => g (A.f i j)⟩

/-- ndarray .sum_axis(Axis(0)): column sums over the batch axis. -/
def Mat.sumAxis0 (A : Mat) : VecQ :=
  ⟨A.c, fun j => Finset.sum (Finset.range A.r) (fun i => A.f i j)⟩

/-- ndarray -= on Array1 (entrywise subtraction). -/
def VecQ.sub (u v : VecQ) : VecQ := ⟨u.n, fun j => u.f j - v.f j⟩

/-- ndarray .insert_axis(Axis(1)) on an Array1 of f64: a column matrix. -/
def VecQ.colMat (v : VecQ) : Mat := ⟨v.n, 1, fun i _ => v.f i⟩

/-- ndarray .insert_axis(Axis(1)) on an Array1 of usize: a column matrix. -/
def VecN.colMat (v : VecN) : MatN := ⟨v.n, 1, fun i _ => v.f i⟩

/-- ndarray .remove_axis(Axis(1)) on a column matrix of f64. -/
def Mat.colVec (m : Mat) : VecQ := ⟨m.r, fun i => m.f i 0⟩

/-- ndarray .remove_axis(Axis(1)) on a column matrix of usize. -/
def MatN.colVec (m : MatN) : VecN := ⟨m.r, fun i => m.f i 0⟩

/-- ndarray .into_shape(len) on a (r, c) matrix: the row-major flattening. -/
def Mat.flatten (m : Mat) : VecQ := ⟨m.r * m.c, fun k => m.f (k / m.c) (k % m.c)⟩

/-- Array1::from on a Rust Vec of f64. -/
def vecOfList (y : List ℚ) : VecQ := ⟨y.length, fun j => y.getD j 0⟩

/-- Modelled from the spec: the Activation capability (external collaborator),
an elementwise nonlinearity a(z) and its elementwise derivative d(z). -/
structure Activation where
  a : ℚ → ℚ
  d : ℚ → ℚ

/-- Modelled from the spec: the Loss capability (external collaborator),
a scalar loss a(prediction, target) and its gradient d(prediction, target)
with respect to the prediction. -/
structure Loss where
  a : VecQ → VecQ → ℚ
  d : VecQ → VecQ → VecQ

/-- The shared pool's point lookup, substrate.get. -/
abbrev Pool := Nat → ℚ

/-- Modelled from the spec: Substrate.highspeed(grad, index, learning_rate).
It may mutate grad and index in place (index entries may be reassigned to
different slot ids) and scatter-updates the pool; the model returns the
mutated grad, the mutated index and the pool contents after the call. -/
abbrev HS := Pool → Mat → MatN → ℚ → Mat × MatN × Pool

/-- The Layer struct of fc.rs. -/
structure Layer where
  x : Mat
  wi : MatN
  bi : VecN
  w : Mat
  b : VecQ
  d_z : Mat
  grad_w : Mat
  grad_b : VecQ
  activation : Activation

/-- Layer::new.  The ndarray_rand draws Array2::random(w_shape,
Uniform::new(0, pool_size)) are modelled from the spec ("assigning wi/bi via
uniform random draws over [0, substrate.size)") by raw RNG oracles drawW,
drawB reduced into range by % pool_size. -/
def Layer.new (poolSize : Nat) (xShape : Nat × Nat) (wShape : Nat × Nat) (bShape : Nat)
    (activation : Activation) (drawW : Nat → Nat → Nat) (drawB : Nat → Nat) : Layer :=
  { x := Mat.zeros xShape.1 xShape.2
    wi := ⟨wShape.1, wShape.2, fun i j => drawW i j % poolSize⟩
    bi := ⟨bShape, fun j => drawB j % poolSize⟩
    w := Mat.zeros wShape.1 wShape.2
    b := VecQ.zeros bShape
    d_z := Mat.zeros wShape.1 wShape.2
    grad_w := Mat.zeros wShape.1 wShape.2
    grad_b := VecQ.zeros bShape
    activation := activation }

/-- Layer::gather: self.w = self.wi.map(|ix| substrate.get(*ix)).  (Note the
source assigns only w; the bias vector b is not touched.) -/
def Layer.gather (l : Layer) (get : Pool) : Layer :=
  { l with w := ⟨l.wi.r, l.wi.c, fun i j => get (l.wi.f i j)⟩ }

/-- Layer::shift_weights: self.wi += shift. -/
def Layer.shift_weights (l : Layer) (shift : MatN) : Layer :=
  { l with wi := ⟨l.wi.r, l.wi.c, fun i j => l.wi.f i j + shift.f i j⟩ }

/-- Layer::shift_bias: self.bi += shift. -/
def Layer.shift_bias (l : Layer) (shift : VecN) : Layer :=
  { l with bi := ⟨l.bi.n, fun j => l.bi.f j + shift.f j⟩ }

/-- Layer::assign_grad_w. -/
def Layer.assign_grad_w (l : Layer) (grad : Mat) : Layer := { l with grad_w := grad }

/-- Layer::assign_grad_b. -/
def Layer.assign_grad_b (l : Layer) (grad : VecQ) : Layer := { l with grad_b := grad }

/-- Layer::forward: caches x, z = x.dot(w) + b, caches d_z = activation.d(z),
returns activation.a(z) (returned first) together with the mutated layer. -/
def Layer.forward (l : Layer) (x : Mat) : Mat × Layer :=
  let z := Mat.addRowVec (x.dot l.w) l.b
  let a_z := z.mapQ l.activation.a
  let d_z := z.mapQ l.activation.d
  (a_z, { l with x := x, d_z := d_z })

/-- Layer::backward: grad_z = grad_output * d_z, grad_input = grad_z.dot(w.t),
grad_w = x.t.dot(grad_z), grad_b = grad_z.sum_axis(0); the local grads are
subtracted into the accumulators; grad_input is returned (first). -/
def Layer.backward (l : Layer) (gradOutput : Mat) : Mat × Layer :=
  let grad_z := gradOutput.hadamard l.d_z
  let grad_input := grad_z.dot l.w.t
  let grad_w := l.x.t.dot grad_z
  let grad_b := grad_z.sumAxis0
  (grad_input, { l with grad_w := l.grad_w.sub grad_w, grad_b := l.grad_b.sub grad_b })

/-- The GradientRetention enum. -/
inductive GradientRetention where
  | Roll : GradientRetention
  | Zero : GradientRetention

/-- The Manifold struct of fc.rs.  The Arc Substrate field is represented by
the pool capacity subSize and current contents subGet; its highspeed operation
is external and passed as an HS oracle to the operations that invoke it. -/
structure Manifold where
  subSize : Nat
  subGet : Pool
  dIn : Nat
  dOut : Nat
  layers : List Nat
  web : List Layer
  hiddenActivation : Activation
  outputActivation : Activation
  verbose : Bool
  loss : Loss
  gradientRetention : GradientRetention
  learningRate : ℚ
  decay : ℚ
  earlyTerminate : List ℚ → Bool
  epochs : Nat
  sampleSize : Nat
  losses : List ℚ

/-- The early-termination closure installed by Manifold::until(patience,
min_delta): with insufficient history (len < patience + 2) return false,
otherwise average previous-minus-current over the trailing patience pairs and
return true iff that average is below min_delta. -/
def untilFn (patience : Nat) (minDelta : ℚ) (losses : List ℚ) : Bool :=
  let len := losses.length
  if patience + 2 > len then false
  else
    let deltas := ((List.range' (len - patience) patience).reverse).map
      (fun i => losses.getD (i - 1) 0 - losses.getD i 0)
    let avgDelta := deltas.foldl (fun a v => a + v) 0 / (deltas.length : ℚ)
    if avgDelta < minDelta then true else false

/-- Manifold::until installs the untilFn closure. -/
def Manifold.until (M : Manifold) (patience : Nat) (minDelta : ℚ) : Manifold :=
  { M with earlyTerminate := untilFn patience minDelta }

/-- The loop body of Manifold::weave, recursing over the hidden-width
schedule.  p is the running previous width (p_dim, which also drives x_shape =
(1, p)); drawW i / drawB i are the RNG oracles for the i-th constructed layer. -/
def weaveAux (poolSize : Nat) (hiddenA outputA : Activation)
    (drawW : Nat → Nat → Nat → Nat) (drawB : Nat → Nat → Nat) (dOut : Nat) :
    Nat → Nat → List Nat → List Layer
  | i, p, [] => [Layer.new poolSize (1, p) (p, dOut) dOut outputA (drawW i) (drawB i)]
  | i, p, h :: hs =>
      Layer.new poolSize (1, p) (p, h) h hiddenA (drawW i) (drawB i) ::
        weaveAux poolSize hiddenA outputA drawW drawB dOut (i + 1) h hs

/-- Manifold::weave: push one Layer per hidden width plus a final output
layer onto the web, threading widths. -/
def Manifold.weave (M : Manifold) (drawW : Nat → Nat → Nat → Nat)
    (drawB : Nat → Nat → Nat) : Manifold :=
  { M with web := M.web ++
      weaveAux M.subSize M.hiddenActivation M.outputActivation drawW drawB M.dOut 0 M.dIn M.layers }

/-- Manifold::gather: Layer::gather for every layer of the web. -/
def Manifold.gatherAll (M : Manifold) : Manifold :=
  { M with web := M.web.map (fun l => l.gather M.subGet) }

/-- Manifold::prepare: a flat input vector becomes a (1, len) matrix. -/
def Manifold.prepare (xv : List ℚ) : Mat := ⟨1, xv.length, fun _ j => xv.getD j 0⟩

/-- The forward threading of Manifold::forward: fold the input matrix through
every layer in order, collecting the mutated layers. -/
def webForward : List Layer → Mat → Mat × List Layer
  | [], x => (x, [])
  | l :: rest, x =>
      let r := l.forward x
      let r2 := webForward rest r.1
      (r2.1, r.2 :: r2.2)

/-- Manifold::forward: prepare, thread through the web, flatten the final
(1, d_out) output to an Array1. -/
def Manifold.forward (M : Manifold) (xv : List ℚ) : VecQ × Manifold :=
  let x0 := Manifold.prepare xv
  let r := webForward M.web x0
  (r.1.flatten, { M with web := r.2 })

/-- The per-layer body of the reverse loop in Manifold::backwards: backward,
the two highspeed submissions (weights in place, biases through reshaped
copies), shift_bias, assign_grad_b, re-gather, then the retention policy. -/
def backLayerStep (hs : HS) (lr : ℚ) (ret : GradientRetention) (l : Layer)
    (g : Mat) (pool : Pool) : Layer × Mat × Pool :=
  let r0 := Layer.backward l g
  let gradInput := r0.1
  let l1 := r0.2
  let gbDim := l1.grad_b.n
  let gwDim := (l1.grad_w.r, l1.grad_w.c)
  let bGradReshaped := l1.grad_b.colMat
  let bLinkReshaped := l1.bi.colMat
  let r1 := hs pool l1.grad_w l1.wi lr
  let l2 := { l1 with grad_w := r1.1, wi := r1.2.1 }
  let r2 := hs r1.2.2 bGradReshaped bLinkReshaped lr
  let l3 := ((l2.shift_bias r2.2.1.colVec).assign_grad_b r2.1.colVec).gather r2.2.2
  let l4 := match ret with
    | GradientRetention.Zero =>
        (l3.assign_grad_b (VecQ.zeros gbDim)).assign_grad_w (Mat.zeros gwDim.1 gwDim.2)
    | GradientRetention.Roll => l3
  (l4, gradInput, r2.2.2)

/-- The reverse iteration of Manifold::backwards over the web: layers after
the current one are processed first. -/
def backwardsWeb (hs : HS) (lr : ℚ) (ret : GradientRetention) :
    List Layer → Mat → Pool → List Layer × Mat × Pool
  | [], g, p => ([], g, p)
  | l :: rest, g, p =>
      let r := backwardsWeb hs lr ret rest g p
      let s := backLayerStep hs lr ret l r.2.1 r.2.2
      (s.1 :: r.1, s.2.1, s.2.2)

/-- Manifold::backwards: the loss gradient reshaped to (1, d_out) is threaded
through Layer::backward in reverse layer order with the per-layer substrate
updates. -/
def Manifold.backwards (hs : HS) (M : Manifold) (yPred : VecQ) (y : List ℚ)
    (loss : Loss) : Manifold :=
  let gradOutputI := loss.d yPred (vecOfList y)
  let g0 : Mat := ⟨1, gradOutputI.n, fun _ j => gradOutputI.f j⟩
  let r := backwardsWeb hs M.learningRate M.gradientRetention M.web g0 M.subGet
  { M with web := r.1, subGet := r.2.2 }

/-- The inner sample loop of one epoch of Manifold::train: for each sampled
pair, forward, push the scalar loss, backwards. -/
def Manifold.samplePass (hs : HS) : Manifold → List ℚ → List (List ℚ × List ℚ) →
    Manifold × List ℚ
  | M, acc, [] => (M, acc)
  | M, acc, xy :: rest =>
      let r := M.forward xy.1
      let lossVal := r.2.loss.a r.1 (vecOfList xy.2)
      let M2 := Manifold.backwards hs r.2 r.1 xy.2 r.2.loss
      Manifold.samplePass hs M2 (acc ++ [lossVal]) rest

/-- One epoch of Manifold::train.  The rand choose_multiple minibatch draw is
modelled from its documented contract by the oracle pick (epoch index to the
chosen pairs); run the sample loop, decay the learning rate, append the
average (the unguarded quotient total/count) to the loss history. -/
def Manifold.trainEpoch (hs : HS) (pick : Nat → List (List ℚ × List ℚ))
    (e : Nat) (M : Manifold) : Manifold :=
  let sample := pick e
  let r := Manifold.samplePass hs M [] sample
  let M1 := r.1
  let totalLoss := r.2
  let M2 := { M1 with learningRate := M1.learningRate * M1.decay }
  let ct : ℚ := (totalLoss.length : ℚ)
  let avgLoss := totalLoss.foldl (fun a v => a + v) 0 / ct
  { M2 with losses := M2.losses ++ [avgLoss] }

/-- The epoch loop of Manifold::train: run an epoch, then break if the
early-termination predicate fires on the whole loss history. -/
def Manifold.trainGo (hs : HS) (pick : Nat → List (List ℚ × List ℚ))
    (xy : List (List ℚ × List ℚ)) : Nat → Nat → Manifold → Manifold
  | 0, _, M => M
  | fuel + 1, e, M =>
      let M1 := Manifold.trainEpoch hs pick e M
      if M1.earlyTerminate M1.losses then M1
      else Manifold.trainGo hs pick xy fuel (e + 1) M1

/-- Manifold::train: pair inputs with targets positionally and run up to
epochs epochs. -/
def Manifold.train (hs : HS) (pick : Nat → List (List ℚ × List ℚ))
    (M : Manifold) (x y : List (List ℚ)) : Manifold :=
  let xy := x.zip y
  Manifold.trainGo hs pick xy M.epochs 0 M

/-! Concrete fixtures used by witnesses and failing-input evaluations. -/

/-- A concrete activation capability: identity with constant derivative 1. -/
def idAct : Activation := { a := fun z => z, d := fun _ => 1 }

/-- A concrete loss capability whose gradient is the prediction itself. -/
def predLoss : Loss := { a := fun _ _ => 0, d := fun p _ => p }

/-- A stub highspeed: no slot reassignment, no gradient mutation, pool
unchanged. -/
def stubHS : HS := fun p g ix _ => (g, ix, p)

/-- A placeholder layer, used as the List.getD default. -/
def layer0 : Layer :=
  Layer.new 1 (0, 0) (0, 0) 0 idAct (fun _ _ => 0) (fun _ => 0)

/-- A concrete one-layer manifold over a pool of the given size whose single
layer has every wi entry 0 and every bi entry biv % size. -/
def mkM (size biv : Nat) (ret : GradientRetention) : Manifold :=
  { subSize := size
    subGet := fun i => (i : ℚ)
    dIn := 1
    dOut := 1
    layers := []
    web := [Layer.new size (1, 1) (1, 1) 1 idAct (fun _ _ => 0) (fun _ => biv)]
    hiddenActivation := idAct
    outputActivation := idAct
    verbose := false
    loss := predLoss
    gradientRetention := ret
    learningRate := 1 / 100
    decay := 1
    earlyTerminate := fun _ => false
    epochs := 3
    sampleSize := 1
    losses := [] }

/-- A concrete unwoven manifold (empty web) with schedule [3]. -/
def emptyM : Manifold :=
  { subSize := 4
    subGet := fun i => (i : ℚ)
    dIn := 2
    dOut := 1
    layers := [3]
    web := []
    hiddenActivation := idAct
    outputActivation := { a := fun _ => 0, d := fun _ => 0 }
    verbose := false
    loss := predLoss
    gradientRetention := GradientRetention.Roll
    learningRate := 1 / 100
    decay := 1
    earlyTerminate := fun _ => false
    epochs := 2
    sampleSize := 10
    losses := [] }

/-- A concrete layer with wi entry 2 and bi entry 3 over pool size 5. -/
def gatherLayer : Layer :=
  Layer.new 5 (1, 1) (1, 1) 1 idAct (fun _ _ => 2) (fun _ => 3)

/-- A concrete pool whose slot i holds i + 1, so no slot holds zero. -/
def gatherPool : Pool := fun i => (i : ℚ) + 1

/-! Claim theorems. -/

/-- Claim C1 (code bug evaluation).  After Layer::gather over a substrate
whose every slot is nonzero, the weight invariant w[i,j] = get(wi[i,j]) holds
and gather is idempotent, but the bias invariant b[j] = get(bi[j]) fails:
gather never recomputes b, which keeps its constructed all-zero value while
get(bi[0]) = 4. -/
theorem gather_bias_not_refreshed :
    (Layer.gather gatherLayer gatherPool).w.f 0 0 = gatherPool (gatherLayer.wi.f 0 0) ∧
    Layer.gather (Layer.gather gatherLayer gatherPool) gatherPool =
      Layer.gather gatherLayer gatherPool ∧
    (Layer.gather gatherLayer gatherPool).b.f 0 ≠
      gatherPool ((Layer.gather gatherLayer gatherPool).bi.f 0) := by
  refine ⟨rfl, rfl, ?_⟩
  norm_num [Layer.gather, gatherLayer, gatherPool, Layer.new, VecQ.zeros]

/-- Claim C4.  Layer::backward computes grad_z = grad_output ⊙ d_z entrywise,
subtracts grad_w = xᵗ·grad_z and grad_b = column-sum(grad_z) into the
persistent accumulators, and returns grad_input = grad_z·wᵗ. -/
theorem backward_gradient_spec (l : Layer) (g : Mat) :
    (∀ i j, (l.backward g).2.grad_w.f i j =
      l.grad_w.f i j -
        Finset.sum (Finset.range l.x.r) (fun k => l.x.f k i * (g.f k j * l.d_z.f k j))) ∧
    (∀ j, (l.backward g).2.grad_b.f j =
      l.grad_b.f j - Finset.sum (Finset.range g.r) (fun k => g.f k j * l.d_z.f k j)) ∧
    (∀ i j, (l.backward g).1.f i j =
      Finset.sum (Finset.range g.c) (fun k => (g.f i k * l.d_z.f i k) * l.w.f j k)) ∧
    (l.backward g).1.r = g.r ∧ (l.backward g).1.c = l.w.r ∧
    (l.backward g).2.x = l.x ∧ (l.backward g).2.d_z = l.d_z ∧
    (l.backward g).2.w = l.w ∧ (l.backward g).2.b = l.b := by
  refine ⟨fun i j => rfl, fun j => rfl, fun i j => rfl, rfl, rfl, rfl, rfl, rfl, rfl⟩

/-- Claim C2 (code bug evaluation).  With a stub substrate whose highspeed
leaves its index argument unchanged (zero reassignment), Manifold::backwards
does not leave bi unchanged: shift_bias receives the full mutated index copy
rather than a delta, so bi += bi doubles the entry from 3 to 6. -/
theorem backwards_bias_index_doubles :
    ((Manifold.backwards stubHS (mkM 5 3 GradientRetention.Roll) ⟨1, fun _ => 1⟩ [0]
        predLoss).web.getD 0 layer0).bi.f 0 = 6 ∧
    ((mkM 5 3 GradientRetention.Roll).web.getD 0 layer0).bi.f 0 = 3 := by
  exact ⟨rfl, rfl⟩

/-- Claim C3 (code bug evaluation).  Over a pool of size 2 with bi = [1], a
backwards call under a reassignment-free highspeed pushes the bias index to
2, outside [0, substrate.size): the shift_bias step breaks the range
invariant even though construction satisfied it. -/
theorem backwards_bias_index_escapes_pool :
    ¬ (((Manifold.backwards stubHS (mkM 2 1 GradientRetention.Roll) ⟨1, fun _ => 1⟩ [0]
          predLoss).web.getD 0 layer0).bi.f 0 < (mkM 2 1 GradientRetention.Roll).subSize) ∧
    ((mkM 2 1 GradientRetention.Roll).web.getD 0 layer0).bi.f 0 <
      (mkM 2 1 GradientRetention.Roll).subSize := by
  exact ⟨by decide, by decide⟩

/-- Folding addition from the left starting at a is a plus the list sum. -/
lemma foldl_add_eq (l : List ℚ) : ∀ a : ℚ, l.foldl (fun x y => x + y) a = a + l.sum := by
  induction l with
  | nil => intro a; simp
  | cons h t ih => intro a; simp [ih (a + h)]; ring

/-- Summing a function over List.range' a n is the Finset.Ico sum. -/
lemma range'_map_sum (f : Nat → ℚ) : ∀ (n a : Nat),
    ((List.range' a n).map f).sum = Finset.sum (Finset.Ico a (a + n)) f := by
  intro n
  induction n with
  | zero => intro a; simp
  | succ m ih =>
      intro a
      have hbot : a < a + (m + 1) := by omega
      rw [Finset.sum_eq_sum_Ico_succ_bot hbot]
      have : a + 1 + m = a + (m + 1) := by omega
      simp [List.range'_succ, ih (a + 1), this]

/-- Claim C6.  The untilFn predicate returns false on insufficient history
(length < patience + 2); on sufficient history it returns true exactly when
the mean of previous-minus-current over the trailing patience loss pairs is
below min_delta; and on the two concrete histories of the claim (patience 3,
min_delta 1/10) it returns false. -/
theorem until_predicate_spec (patience : Nat) (minDelta : ℚ) (losses : List ℚ)
    (hp : 1 ≤ patience) :
    (losses.length < patience + 2 → untilFn patience minDelta losses = false) ∧
    (patience + 2 ≤ losses.length →
      (untilFn patience minDelta losses = true ↔
        Finset.sum (Finset.Ico (losses.length - patience) losses.length)
            (fun i => losses.getD (i - 1) 0 - losses.getD i 0) / (patience : ℚ) < minDelta)) ∧
    untilFn 3 (1 / 10) [(5 : ℚ), 4, 3, 2, 2, 2] = false ∧
    untilFn 3 (1 / 10) [(5 : ℚ), 4] = false := by
  refine ⟨?_, ?_, ?_, ?_⟩
  · intro h
    simp only [untilFn]
    rw [if_pos (by omega)]
  · intro h
    simp only [untilFn]
    rw [if_neg (by omega)]
    have hlen :
        (((List.range' (losses.length - patience) patience).reverse).map
          (fun i => losses.getD (i - 1) 0 - losses.getD i 0)).length = patience := by
      simp
    have hsum :
        (((List.range' (losses.length - patience) patience).reverse).map
          (fun i => losses.getD (i - 1) 0 - losses.getD i 0)).sum =
        Finset.sum (Finset.Ico (losses.length - patience) losses.length)
          (fun i => losses.getD (i - 1) 0 - losses.getD i 0) := by
      rw [List.map_reverse, List.sum_reverse, range'_map_sum]
      have : losses.length - patience + patience = losses.length := by omega
      rw [this]
    rw [foldl_add_eq, zero_add, hlen, hsum]
    split_ifs with hc
    · exact iff_of_true rfl hc
    · exact iff_of_false (by simp) hc
  · norm_num [untilFn, List.range']
  · norm_num [untilFn]

/-- Witness for until_predicate_spec at patience 3, min_delta 1/10, history
[5, 4]. -/
theorem until_predicate_spec_witness :
    (1 ≤ 3) ∧
    (([(5 : ℚ), 4].length < 3 + 2 → untilFn 3 (1 / 10) [(5 : ℚ), 4] = false) ∧
     (3 + 2 ≤ [(5 : ℚ), 4].length →
       (untilFn 3 (1 / 10) [(5 : ℚ), 4] = true ↔
         Finset.sum (Finset.Ico ([(5 : ℚ), 4].length - 3) [(5 : ℚ), 4].length)
             (fun i => [(5 : ℚ), 4].getD (i - 1) 0 - [(5 : ℚ), 4].getD i 0) /
             ((3 : Nat) : ℚ) < 1 / 10)) ∧
     untilFn 3 (1 / 10) [(5 : ℚ), 4, 3, 2, 2, 2] = false ∧
     untilFn 3 (1 / 10) [(5 : ℚ), 4] = false) :=
  ⟨by decide, until_predicate_spec 3 (1 / 10) [(5 : ℚ), 4] (by decide)⟩

/-- The locally computed weight gradient of one Layer::backward call,
(xᵗ · (grad_output ⊙ d_z)) at entry (i, j). -/
def localGradW (l : Layer) (g : Mat) : Nat → Nat → ℚ :=
  fun i j => Finset.sum (Finset.range l.x.r) (fun k => l.x.f k i * (g.f k j * l.d_z.f k j))

/-- The locally computed bias gradient of one Layer::backward call, the
column sum of grad_output ⊙ d_z. -/
def localGradB (l : Layer) (g : Mat) : Nat → ℚ :=
  fun j => Finset.sum (Finset.range g.r) (fun k => g.f k j * l.d_z.f k j)

/-- Under retention Zero, every layer's accumulators are all-zero. -/
def ZeroRetentionAfter (M : Manifold) : Prop :=
  ∀ l ∈ M.web, (∀ i j, l.grad_w.f i j = 0) ∧ (∀ j, l.grad_b.f j = 0)

/-- Under retention Roll, two consecutive per-layer update steps leave the
accumulators holding the starting value minus both steps' locally computed
gradient contributions. -/
def RollTwoStepAccum (hs : HS) (lr : ℚ) (l : Layer) (g1 g2 : Mat)
    (p1 p2 : Pool) : Prop :=
  (∀ i j, (backLayerStep hs lr GradientRetention.Roll
      (backLayerStep hs lr GradientRetention.Roll l g1 p1).1 g2 p2).1.grad_w.f i j =
    l.grad_w.f i j - localGradW l g1 i j -
      localGradW (backLayerStep hs lr GradientRetention.Roll l g1 p1).1 g2 i j) ∧
  (∀ j, (backLayerStep hs lr GradientRetention.Roll
      (backLayerStep hs lr GradientRetention.Roll l g1 p1).1 g2 p2).1.grad_b.f j =
    l.grad_b.f j - localGradB l g1 j -
      localGradB (backLayerStep hs lr GradientRetention.Roll l g1 p1).1 g2 j)

/-- Under Zero retention the per-layer step ends with zeroed accumulators,
whatever the substrate does. -/
lemma backLayerStep_zero (hs : HS) (lr : ℚ) (l : Layer) (g : Mat) (p : Pool) :
    (∀ i j, (backLayerStep hs lr GradientRetention.Zero l g p).1.grad_w.f i j = 0) ∧
    (∀ j, (backLayerStep hs lr GradientRetention.Zero l g p).1.grad_b.f j = 0) :=
  ⟨fun _ _ => rfl, fun _ => rfl⟩

/-- Under Zero retention every layer of the processed web has zeroed
accumulators. -/
lemma backwardsWeb_zero (hs : HS) (lr : ℚ) : ∀ (web : List Layer) (g : Mat) (p : Pool),
    ∀ l ∈ (backwardsWeb hs lr GradientRetention.Zero web g p).1,
      (∀ i j, l.grad_w.f i j = 0) ∧ (∀ j, l.grad_b.f j = 0) := by
  intro web
  induction web with
  | nil => intro g p l hl; simp [backwardsWeb] at hl
  | cons hd tl ih =>
      intro g p l hl
      simp only [backwardsWeb, List.mem_cons] at hl
      rcases hl with h | h
      · subst h; exact backLayerStep_zero hs lr hd _ _
      · exact ih g p l h

/-- Under Roll retention with a stub substrate (highspeed mutates neither
grad nor index), one per-layer step subtracts exactly the local gradients
into the accumulators. -/
lemma backLayerStep_roll (hs : HS) (lr : ℚ) (l : Layer) (g : Mat) (p : Pool)
    (hstub : ∀ p0 g0 ix0 r0, (hs p0 g0 ix0 r0).1 = g0 ∧ (hs p0 g0 ix0 r0).2.1 = ix0) :
    (∀ i j, (backLayerStep hs lr GradientRetention.Roll l g p).1.grad_w.f i j =
      l.grad_w.f i j - localGradW l g i j) ∧
    (∀ j, (backLayerStep hs lr GradientRetention.Roll l g p).1.grad_b.f j =
      l.grad_b.f j - localGradB l g j) := by
  constructor
  · intro i j
    simp only [backLayerStep, Layer.backward, Layer.gather, Layer.assign_grad_b,
      Layer.shift_bias, localGradW, Mat.sub, Mat.dot, Mat.t, Mat.hadamard]
    rw [(hstub _ _ _ _).1]
  · intro j
    simp only [backLayerStep, Layer.backward, Layer.gather, Layer.assign_grad_b,
      Layer.shift_bias, localGradB, VecQ.sub, Mat.colVec, VecQ.colMat,
      Mat.sumAxis0, Mat.hadamard]
    rw [(hstub _ _ _ _).1]

/-- Claim C7.  After Manifold::backwards under retention Zero every layer's
grad_w/grad_b accumulator is all-zero; under retention Roll with a stub
substrate that neither reassigns indices nor mutates its gradient argument,
two consecutive per-layer update steps accumulate both steps' negated local
gradients additively. -/
theorem gradient_retention_spec (hsA hs : HS) (lr : ℚ) (l : Layer) (g1 g2 : Mat)
    (p1 p2 : Pool) (M : Manifold) (yp : VecQ) (y : List ℚ) (L : Loss)
    (hzero : M.gradientRetention = GradientRetention.Zero)
    (hstub : ∀ p0 g0 ix0 r0, (hs p0 g0 ix0 r0).1 = g0 ∧ (hs p0 g0 ix0 r0).2.1 = ix0) :
    ZeroRetentionAfter (Manifold.backwards hsA M yp y L) ∧
    RollTwoStepAccum hs lr l g1 g2 p1 p2 := by
  constructor
  · intro l0 hl0
    simp only [Manifold.backwards] at hl0
    rw [hzero] at hl0
    exact backwardsWeb_zero hsA M.learningRate M.web _ M.subGet l0 hl0
  · constructor
    · intro i j
      rw [(backLayerStep_roll hs lr _ g2 p2 hstub).1,
        (backLayerStep_roll hs lr l g1 p1 hstub).1]
    · intro j
      rw [(backLayerStep_roll hs lr _ g2 p2 hstub).2,
        (backLayerStep_roll hs lr l g1 p1 hstub).2]

/-- Witness for gradient_retention_spec with the stub substrate, a concrete
Zero-retention one-layer manifold and concrete Roll steps. -/
theorem gradient_retention_spec_witness :
    (mkM 5 3 GradientRetention.Zero).gradientRetention = GradientRetention.Zero ∧
    (∀ p0 g0 ix0 r0, (stubHS p0 g0 ix0 r0).1 = g0 ∧ (stubHS p0 g0 ix0 r0).2.1 = ix0) ∧
    ZeroRetentionAfter
      (Manifold.backwards stubHS (mkM 5 3 GradientRetention.Zero) ⟨1, fun _ => 1⟩ [0] predLoss) ∧
    RollTwoStepAccum stubHS 1 gatherLayer (Mat.zeros 1 1) (Mat.zeros 1 1)
      gatherPool gatherPool :=
  ⟨rfl, fun _ _ _ _ => ⟨rfl, rfl⟩,
    (gradient_retention_spec stubHS stubHS 1 gatherLayer (Mat.zeros 1 1) (Mat.zeros 1 1)
      gatherPool gatherPool (mkM 5 3 GradientRetention.Zero) ⟨1, fun _ => 1⟩ [0] predLoss
      rfl (fun _ _ _ _ => ⟨rfl, rfl⟩)).1,
    (gradient_retention_spec stubHS stubHS 1 gatherLayer (Mat.zeros 1 1) (Mat.zeros 1 1)
      gatherPool gatherPool (mkM 5 3 GradientRetention.Zero) ⟨1, fun _ => 1⟩ [0] predLoss
      rfl (fun _ _ _ _ => ⟨rfl, rfl⟩)).2⟩

/-- getD on an append stays in the left list below its length. -/
lemma getD_append_lt (l l2 : List Nat) : ∀ n, n < l.length →
    (l ++ l2).getD n 0 = l.getD n 0 := by
  induction l with
  | nil => intro n h; simp only [List.length_nil] at h; omega
  | cons a t ih =>
      intro n h
      match n with
      | 0 => rfl
      | n + 1 =>
          simp only [List.cons_append, List.getD_cons_succ]
          exact ih n (by simp only [List.length_cons] at h; omega)

/-- Extending the width schedule by the output width does not change the
widths read below the appended entry. -/
lemma cons_widths_ext (a x : Nat) (l : List Nat) : ∀ n, n < l.length + 1 →
    (a :: l).getD n 0 = (a :: (l ++ [x])).getD n 0 := by
  intro n h
  match n with
  | 0 => rfl
  | n + 1 =>
      simp only [List.getD_cons_succ]
      exact (getD_append_lt l [x] n (by omega)).symm

/-- weaveAux produces one layer per hidden width plus the output layer. -/
lemma weaveAux_length (poolSize : Nat) (hA oA : Activation)
    (drawW : Nat → Nat → Nat → Nat) (drawB : Nat → Nat → Nat) (dOut : Nat) :
    ∀ (hs : List Nat) (i p : Nat),
      (weaveAux poolSize hA oA drawW drawB dOut i p hs).length = hs.length + 1 := by
  intro hs
  induction hs with
  | nil => intro i p; rfl
  | cons h t ih => intro i p; simp [weaveAux, ih (i + 1) h]

/-- Widths of the weaveAux chain: layer n has input width (p :: hs)[n] and
output width (hs ++ [dOut])[n]. -/
lemma weaveAux_widths (poolSize : Nat) (hA oA : Activation)
    (drawW : Nat → Nat → Nat → Nat) (drawB : Nat → Nat → Nat) (dOut : Nat) :
    ∀ (hs : List Nat) (i p n : Nat), n < hs.length + 1 →
      ((weaveAux poolSize hA oA drawW drawB dOut i p hs).getD n layer0).w.r
          = (p :: hs).getD n 0 ∧
      ((weaveAux poolSize hA oA drawW drawB dOut i p hs).getD n layer0).w.c
          = (hs ++ [dOut]).getD n 0 ∧
      ((weaveAux poolSize hA oA drawW drawB dOut i p hs).getD n layer0).wi.r
          = (p :: hs).getD n 0 ∧
      ((weaveAux poolSize hA oA drawW drawB dOut i p hs).getD n layer0).wi.c
          = (hs ++ [dOut]).getD n 0 ∧
      ((weaveAux poolSize hA oA drawW drawB dOut i p hs).getD n layer0).bi.n
          = (hs ++ [dOut]).getD n 0 := by
  intro hs
  induction hs with
  | nil =>
      intro i p n hn
      match n with
      | 0 => exact ⟨rfl, rfl, rfl, rfl, rfl⟩
      | n + 1 => simp only [List.length_nil] at hn; omega
  | cons h t ih =>
      intro i p n hn
      match n with
      | 0 => exact ⟨rfl, rfl, rfl, rfl, rfl⟩
      | n + 1 =>
          simp only [weaveAux, List.getD_cons_succ, List.cons_append]
          exact ih (i + 1) h n (by simpa using hn)

/-- Every non-final weaveAux layer carries the hidden activation. -/
lemma weaveAux_hidden (poolSize : Nat) (hA oA : Activation)
    (drawW : Nat → Nat → Nat → Nat) (drawB : Nat → Nat → Nat) (dOut : Nat) :
    ∀ (hs : List Nat) (i p n : Nat), n + 1 < hs.length + 1 →
      ((weaveAux poolSize hA oA drawW drawB dOut i p hs).getD n layer0).activation = hA := by
  intro hs
  induction hs with
  | nil => intro i p n hn; simp only [List.length_nil] at hn; omega
  | cons h t ih =>
      intro i p n hn
      match n with
      | 0 => rfl
      | n + 1 =>
          simp only [weaveAux, List.getD_cons_succ]
          exact ih (i + 1) h n (by simpa using hn)

/-- The final weaveAux layer carries the output activation. -/
lemma weaveAux_last (poolSize : Nat) (hA oA : Activation)
    (drawW : Nat → Nat → Nat → Nat) (drawB : Nat → Nat → Nat) (dOut : Nat) :
    ∀ (hs : List Nat) (i p : Nat),
      ((weaveAux poolSize hA oA drawW drawB dOut i p hs).getD hs.length layer0).activation
        = oA := by
  intro hs
  induction hs with
  | nil => intro i p; rfl
  | cons h t ih =>
      intro i p
      simp only [weaveAux, List.length_cons, List.getD_cons_succ]
      exact ih (i + 1) h

/-- Every index drawn by weaveAux lies in [0, poolSize) when the pool is
nonempty (the getD default layer0 also satisfies the bound). -/
lemma weaveAux_range (poolSize : Nat) (hA oA : Activation)
    (drawW : Nat → Nat → Nat → Nat) (drawB : Nat → Nat → Nat) (dOut : Nat)
    (hpool : 0 < poolSize) :
    ∀ (hs : List Nat) (i p n : Nat),
      (∀ a b, ((weaveAux poolSize hA oA drawW drawB dOut i p hs).getD n layer0).wi.f a b
        < poolSize) ∧
      (∀ b, ((weaveAux poolSize hA oA drawW drawB dOut i p hs).getD n layer0).bi.f b
        < poolSize) := by
  intro hs
  induction hs with
  | nil =>
      intro i p n
      match n with
      | 0 => exact ⟨fun a b => Nat.mod_lt _ hpool, fun b => Nat.mod_lt _ hpool⟩
      | n + 1 =>
          refine ⟨fun a b => ?_, fun b => ?_⟩ <;>
          · simp only [weaveAux, List.getD_cons_succ, List.getD_nil]
            simpa [layer0, Layer.new] using hpool
  | cons h t ih =>
      intro i p n
      match n with
      | 0 => exact ⟨fun a b => Nat.mod_lt _ hpool, fun b => Nat.mod_lt _ hpool⟩
      | n + 1 =>
          simp only [weaveAux, List.getD_cons_succ]
          exact ih (i + 1) h n

/-- The shape facts claimed of a woven Manifold: one layer per hidden width
plus one, the width chain dIn :: layers ++ [dOut], hidden activation on every
layer but the last, output activation on the last, and all drawn indices in
[0, subSize). -/
def WeaveSpec (M M' : Manifold) : Prop :=
  M'.web.length = M.layers.length + 1 ∧
  (∀ n, n < M'.web.length →
    (M'.web.getD n layer0).w.r = (M.dIn :: (M.layers ++ [M.dOut])).getD n 0 ∧
    (M'.web.getD n layer0).w.c = (M.dIn :: (M.layers ++ [M.dOut])).getD (n + 1) 0 ∧
    (M'.web.getD n layer0).wi.r = (M.dIn :: (M.layers ++ [M.dOut])).getD n 0 ∧
    (M'.web.getD n layer0).wi.c = (M.dIn :: (M.layers ++ [M.dOut])).getD (n + 1) 0 ∧
    (M'.web.getD n layer0).bi.n = (M.dIn :: (M.layers ++ [M.dOut])).getD (n + 1) 0) ∧
  (∀ n, n + 1 < M'.web.length → (M'.web.getD n layer0).activation = M.hiddenActivation) ∧
  (M'.web.getD M.layers.length layer0).activation = M.outputActivation ∧
  (∀ n a b, (M'.web.getD n layer0).wi.f a b < M.subSize ∧
    (M'.web.getD n layer0).bi.f b < M.subSize)

/-- Claim C9.  Weaving an unbuilt Manifold over a nonempty pool yields a web
of layers.length + 1 layers whose widths chain through
dIn :: layers ++ [dOut], with the hidden activation everywhere except the
final layer, the output activation on the final layer, and every freshly
drawn wi/bi entry inside [0, substrate.size). -/
theorem weave_spec (M : Manifold) (drawW : Nat → Nat → Nat → Nat)
    (drawB : Nat → Nat → Nat) (hweb : M.web = []) (hpool : 0 < M.subSize) :
    WeaveSpec M (M.weave drawW drawB) := by
  have hwebeq : (M.weave drawW drawB).web =
      weaveAux M.subSize M.hiddenActivation M.outputActivation drawW drawB M.dOut
        0 M.dIn M.layers := by
    simp [Manifold.weave, hweb]
  refine ⟨?_, ?_, ?_, ?_, ?_⟩
  · rw [hwebeq]; exact weaveAux_length _ _ _ _ _ _ _ 0 M.dIn
  · intro n hn
    rw [hwebeq] at hn ⊢
    rw [weaveAux_length _ _ _ _ _ _ _ 0 M.dIn] at hn
    have hw := weaveAux_widths M.subSize M.hiddenActivation M.outputActivation
      drawW drawB M.dOut M.layers 0 M.dIn n hn
    refine ⟨?_, ?_, ?_, ?_, ?_⟩
    · rw [hw.1]; exact cons_widths_ext M.dIn M.dOut M.layers n hn
    · rw [hw.2.1, List.getD_cons_succ]
    · rw [hw.2.2.1]; exact cons_widths_ext M.dIn M.dOut M.layers n hn
    · rw [hw.2.2.2.1, List.getD_cons_succ]
    · rw [hw.2.2.2.2, List.getD_cons_succ]
  · intro n hn
    rw [hwebeq] at hn ⊢
    rw [weaveAux_length _ _ _ _ _ _ _ 0 M.dIn] at hn
    exact weaveAux_hidden M.subSize M.hiddenActivation M.outputActivation
      drawW drawB M.dOut M.layers 0 M.dIn n hn
  · rw [hwebeq]
    exact weaveAux_last M.subSize M.hiddenActivation M.outputActivation
      drawW drawB M.dOut M.layers 0 M.dIn
  · intro n a b
    rw [hwebeq]
    have hr := weaveAux_range M.subSize M.hiddenActivation M.outputActivation
      drawW drawB M.dOut hpool M.layers 0 M.dIn n
    exact ⟨hr.1 a b, hr.2 b⟩

/-- Witness for weave_spec on the concrete unwoven manifold emptyM. -/
theorem weave_spec_witness :
    emptyM.web = [] ∧ 0 < emptyM.subSize ∧
    WeaveSpec emptyM (emptyM.weave (fun _ _ _ => 0) (fun _ _ => 1)) :=
  ⟨rfl, by decide, weave_spec emptyM (fun _ _ _ => 0) (fun _ _ => 1) rfl (by decide)⟩

/-- getD of an append at the left length reads the appended element. -/
lemma getD_append_last (x : Nat) : ∀ l : List Nat, (l ++ [x]).getD l.length 0 = x := by
  intro l
  induction l with
  | nil => rfl
  | cons a t ih => simpa [List.cons_append, List.getD_cons_succ] using ih

/-- Threading a matrix through the web preserves the row count. -/
lemma webForward_r : ∀ (web : List Layer) (x : Mat), (webForward web x).1.r = x.r := by
  intro web
  induction web with
  | nil => intro x; rfl
  | cons l rest ih => intro x; exact ih (l.forward x).1

/-- The column count out of a nonempty web is the last layer's weight output
width. -/
lemma webForward_c : ∀ (rest : List Layer) (l0 : Layer) (x : Mat),
    (webForward (l0 :: rest) x).1.c = ((l0 :: rest).getD rest.length layer0).w.c := by
  intro rest
  induction rest with
  | nil => intro l0 x; rfl
  | cons h t ih =>
      intro l0 x
      simp only [List.length_cons, List.getD_cons_succ]
      exact ih h (l0.forward x).1

/-- The Layer::forward contract: the input is cached, the output and the
cached derivative are the activation and its derivative applied entrywise to
z = x·w + b, and the output has shape (batch, out_width). -/
def LayerForwardSpec (l : Layer) (x : Mat) : Prop :=
  (l.forward x).2.x = x ∧
  (l.forward x).1.r = x.r ∧
  (l.forward x).1.c = l.w.c ∧
  (∀ i j, (l.forward x).1.f i j =
    l.activation.a (Finset.sum (Finset.range x.c) (fun k => x.f i k * l.w.f k j) + l.b.f j)) ∧
  (∀ i j, (l.forward x).2.d_z.f i j =
    l.activation.d (Finset.sum (Finset.range x.c) (fun k => x.f i k * l.w.f k j) + l.b.f j))

/-- The Manifold::prepare contract: a flat vector becomes the (1, d_in) row
matrix holding it. -/
def PrepareSpec (xv : List ℚ) : Prop :=
  (Manifold.prepare xv).r = 1 ∧ (Manifold.prepare xv).c = xv.length ∧
  ∀ j, (Manifold.prepare xv).f 0 j = xv.getD j 0

/-- Claim C5.  Layer::forward caches x, computes z = x·w + b, caches
d_z = activation.d(z) and returns activation.a(z); Manifold::forward turns a
length-d_in vector into a (1, d_in) matrix, threads it through the woven web
in order, and flattens the final output to a vector of length d_out. -/
theorem forward_spec (l : Layer) (x : Mat) (M : Manifold)
    (drawW : Nat → Nat → Nat → Nat) (drawB : Nat → Nat → Nat) (xv : List ℚ)
    (hweb : M.web = []) (hx : xv.length = M.dIn) :
    LayerForwardSpec l x ∧ PrepareSpec xv ∧
    ((M.weave drawW drawB).forward xv).1.n = M.dOut := by
  refine ⟨⟨rfl, rfl, rfl, fun i j => rfl, fun i j => rfl⟩, ⟨rfl, rfl, fun j => rfl⟩, ?_⟩
  have hwebeq : (M.weave drawW drawB).web =
      weaveAux M.subSize M.hiddenActivation M.outputActivation drawW drawB M.dOut
        0 M.dIn M.layers := by
    simp [Manifold.weave, hweb]
  have hlen := weaveAux_length M.subSize M.hiddenActivation M.outputActivation
    drawW drawB M.dOut M.layers 0 M.dIn
  obtain ⟨l0, rest, hcons⟩ := List.exists_cons_of_ne_nil
    (show weaveAux M.subSize M.hiddenActivation M.outputActivation drawW drawB M.dOut
        0 M.dIn M.layers ≠ [] by
      intro hnil; rw [hnil] at hlen; simp at hlen)
  have hrest : rest.length = M.layers.length := by
    rw [hcons] at hlen
    simp only [List.length_cons] at hlen
    omega
  show ((webForward (M.weave drawW drawB).web (Manifold.prepare xv)).1.flatten).n = M.dOut
  have hn : ((webForward (M.weave drawW drawB).web (Manifold.prepare xv)).1.flatten).n =
      (webForward (M.weave drawW drawB).web (Manifold.prepare xv)).1.r *
      (webForward (M.weave drawW drawB).web (Manifold.prepare xv)).1.c := rfl
  rw [hn, hwebeq, hcons]
  rw [webForward_r (l0 :: rest) (Manifold.prepare xv)]
  rw [webForward_c rest l0 (Manifold.prepare xv)]
  have hgetD : ((l0 :: rest).getD rest.length layer0).w.c = M.dOut := by
    rw [← hcons, hrest]
    have hw := weaveAux_widths M.subSize M.hiddenActivation M.outputActivation
      drawW drawB M.dOut M.layers 0 M.dIn M.layers.length (by omega)
    rw [hw.2.1, getD_append_last M.dOut M.layers]
  rw [hgetD]
  show 1 * M.dOut = M.dOut
  omega

/-- Witness for forward_spec on the concrete unwoven manifold emptyM and a
concrete layer and input. -/
theorem forward_spec_witness :
    emptyM.web = [] ∧ [(1 : ℚ), 2].length = emptyM.dIn ∧
    (LayerForwardSpec gatherLayer (Mat.zeros 1 1) ∧ PrepareSpec [(1 : ℚ), 2] ∧
      ((emptyM.weave (fun _ _ _ => 0) (fun _ _ => 1)).forward [(1 : ℚ), 2]).1.n
        = emptyM.dOut) :=
  ⟨rfl, rfl,
    forward_spec gatherLayer (Mat.zeros 1 1) emptyM (fun _ _ _ => 0) (fun _ _ => 1)
      [(1 : ℚ), 2] rfl rfl⟩

/-- The sample loop mutates only the web and the pool: the loss history and
the early-termination predicate pass through unchanged. -/
lemma samplePass_fields (hs : HS) : ∀ (s : List (List ℚ × List ℚ)) (M : Manifold)
    (acc : List ℚ),
    (Manifold.samplePass hs M acc s).1.losses = M.losses ∧
    (Manifold.samplePass hs M acc s).1.earlyTerminate = M.earlyTerminate := by
  intro s
  induction s with
  | nil => intro M acc; exact ⟨rfl, rfl⟩
  | cons p t ih => intro M acc; exact ih _ _

/-- One training epoch appends exactly one loss value, keeps the previous
history as a prefix and preserves the early-termination predicate. -/
lemma trainEpoch_losses (hs : HS) (pick : Nat → List (List ℚ × List ℚ)) (e : Nat)
    (M : Manifold) :
    (Manifold.trainEpoch hs pick e M).losses.length = M.losses.length + 1 ∧
    (Manifold.trainEpoch hs pick e M).losses.take M.losses.length = M.losses ∧
    (Manifold.trainEpoch hs pick e M).earlyTerminate = M.earlyTerminate := by
  refine ⟨?_, ?_, (samplePass_fields hs (pick e) M []).2⟩
  · show ((Manifold.samplePass hs M [] (pick e)).1.losses ++ [_]).length = M.losses.length + 1
    rw [(samplePass_fields hs (pick e) M []).1]
    simp
  · show ((Manifold.samplePass hs M [] (pick e)).1.losses ++ [_]).take M.losses.length
      = M.losses
    rw [(samplePass_fields hs (pick e) M []).1]
    simpa using List.take_left M.losses _

/-- The epoch loop runs at most fuel epochs, appends one loss per executed
epoch, preserves the existing history and the predicate, and never runs an
epoch after one at whose end the predicate returned true. -/
lemma trainGo_spec (hs : HS) (pick : Nat → List (List ℚ × List ℚ))
    (xy : List (List ℚ × List ℚ)) :
    ∀ (fuel e : Nat) (M : Manifold),
      ∃ k, k ≤ fuel ∧
        (Manifold.trainGo hs pick xy fuel e M).losses.length = M.losses.length + k ∧
        (Manifold.trainGo hs pick xy fuel e M).losses.take M.losses.length = M.losses ∧
        (Manifold.trainGo hs pick xy fuel e M).earlyTerminate = M.earlyTerminate ∧
        ∀ j, j + 1 < k →
          M.earlyTerminate ((Manifold.trainGo hs pick xy fuel e M).losses.take
            (M.losses.length + (j + 1))) = false := by
  intro fuel
  induction fuel with
  | zero =>
      intro e M
      exact ⟨0, by omega, by simp [Manifold.trainGo],
        by simp [Manifold.trainGo, List.take_length], rfl, fun j hj => by omega⟩
  | succ n ih =>
      intro e M
      obtain ⟨hlen1, htake1, hE⟩ := trainEpoch_losses hs pick e M
      by_cases hb : (Manifold.trainEpoch hs pick e M).earlyTerminate
          (Manifold.trainEpoch hs pick e M).losses
      · have hgo : Manifold.trainGo hs pick xy (n + 1) e M
            = Manifold.trainEpoch hs pick e M := by
          simp only [Manifold.trainGo]
          rw [if_pos hb]
        refine ⟨1, by omega, ?_, ?_, ?_, fun j hj => by omega⟩
        · rw [hgo, hlen1]
        · rw [hgo]; exact htake1
        · rw [hgo]; exact hE
      · have hgo : Manifold.trainGo hs pick xy (n + 1) e M
            = Manifold.trainGo hs pick xy n (e + 1) (Manifold.trainEpoch hs pick e M) := by
          simp only [Manifold.trainGo]
          rw [if_neg hb]
        obtain ⟨k, hk, hLen, hTake, hEt, hPred⟩ := ih (e + 1) (Manifold.trainEpoch hs pick e M)
        have hmin : min M.losses.length (Manifold.trainEpoch hs pick e M).losses.length
            = M.losses.length := by rw [hlen1]; omega
        refine ⟨k + 1, by omega, ?_, ?_, ?_, ?_⟩
        · rw [hgo, hLen, hlen1]; omega
        · rw [hgo, ← hmin, ← List.take_take, hTake]
          exact htake1
        · rw [hgo, hEt]; exact hE
        · intro j hj
          match j with
          | 0 =>
              rw [hgo, ← hlen1, hTake, ← hE]
              revert hb
              cases (Manifold.trainEpoch hs pick e M).earlyTerminate
                  (Manifold.trainEpoch hs pick e M).losses <;> simp
          | jj + 1 =>
              have hq := hPred jj (by omega)
              rw [hE] at hq
              have harith : (Manifold.trainEpoch hs pick e M).losses.length + (jj + 1)
                  = M.losses.length + (jj + 1 + 1) := by rw [hlen1]; omega
              rw [harith] at hq
              rw [hgo]
              exact hq

/-- Claim C8.  Manifold::train appends exactly one loss per executed epoch,
never executes more than the configured epoch budget, preserves the existing
history as a prefix, and runs no further epoch after the first epoch at whose
end the early-termination predicate, evaluated on the entire loss history,
returns true. -/
theorem train_epoch_budget_spec (hs : HS) (pick : Nat → List (List ℚ × List ℚ))
    (M : Manifold) (x y : List (List ℚ)) :
    ∃ k, k ≤ M.epochs ∧
      (Manifold.train hs pick M x y).losses.length = M.losses.length + k ∧
      (Manifold.train hs pick M x y).losses.take M.losses.length = M.losses ∧
      ∀ j, j + 1 < k →
        M.earlyTerminate ((Manifold.train hs pick M x y).losses.take
          (M.losses.length + (j + 1))) = false := by
  obtain ⟨k, hk, h1, h2, h3, h4⟩ := trainGo_spec hs pick (x.zip y) M.epochs 0 M
  exact ⟨k, hk, h1, h2, h4⟩

/-- With an empty minibatch every epoch, the loop still appends one history
entry per executed epoch, each equal to the unguarded quotient 0 / 0. -/
lemma trainGo_empty (hs : HS) (pick : Nat → List (List ℚ × List ℚ))
    (xy : List (List ℚ × List ℚ)) (hpe : ∀ e, pick e = []) :
    ∀ (fuel e : Nat) (M : Manifold),
      ∃ k, k ≤ fuel ∧ (0 < fuel → 1 ≤ k) ∧
        (Manifold.trainGo hs pick xy fuel e M).losses =
          M.losses ++ List.replicate k ((0 : ℚ) / (0 : ℚ)) := by
  intro fuel
  induction fuel with
  | zero => intro e M; exact ⟨0, by omega, by omega, by simp [Manifold.trainGo]⟩
  | succ n ih =>
      intro e M
      have hep : (Manifold.trainEpoch hs pick e M).losses
          = M.losses ++ [(0 : ℚ) / (0 : ℚ)] := by
        simp only [Manifold.trainEpoch, hpe e]
        simp [Manifold.samplePass]
      by_cases hb : (Manifold.trainEpoch hs pick e M).earlyTerminate
          (Manifold.trainEpoch hs pick e M).losses
      · have hgo : Manifold.trainGo hs pick xy (n + 1) e M
            = Manifold.trainEpoch hs pick e M := by
          simp only [Manifold.trainGo]
          rw [if_pos hb]
        exact ⟨1, by omega, fun _ => by omega, by rw [hgo, hep]; simp⟩
      · have hgo : Manifold.trainGo hs pick xy (n + 1) e M
            = Manifold.trainGo hs pick xy n (e + 1) (Manifold.trainEpoch hs pick e M) := by
          simp only [Manifold.trainGo]
          rw [if_neg hb]
        obtain ⟨k, hk, _, hL⟩ := ih (e + 1) (Manifold.trainEpoch hs pick e M)
        refine ⟨k + 1, by omega, fun _ => by omega, ?_⟩
        rw [hgo, hL, hep]
        simp [List.replicate_succ]

/-- Claim C10.  Under the documented choose_multiple contract (the sample of
an epoch has min(sample_size, dataset size) elements), a degenerate run
(empty paired dataset or sample_size 0) makes every epoch's inner loop run
zero times, and each executed epoch still appends the unguarded quotient
0 / 0 to the loss history rather than erroring or skipping the append. -/
theorem train_empty_sample_spec (hs : HS) (pick : Nat → List (List ℚ × List ℚ))
    (M : Manifold) (x y : List (List ℚ))
    (hlen : ∀ e, (pick e).length = min M.sampleSize (x.zip y).length)
    (hdeg : (x.zip y).length = 0 ∨ M.sampleSize = 0) :
    (∀ e (M0 : Manifold) (acc : List ℚ),
      Manifold.samplePass hs M0 acc (pick e) = (M0, acc)) ∧
    ∃ k, k ≤ M.epochs ∧ (0 < M.epochs → 1 ≤ k) ∧
      (Manifold.train hs pick M x y).losses =
        M.losses ++ List.replicate k ((0 : ℚ) / (0 : ℚ)) := by
  have hpe : ∀ e, pick e = [] := by
    intro e
    have h0 : (pick e).length = 0 := by
      rw [hlen e]
      rcases hdeg with h | h
      · rw [h]; simp
      · rw [h]; simp
    exact List.eq_nil_of_length_eq_zero h0
  refine ⟨?_, ?_⟩
  · intro e M0 acc
    rw [hpe e]
    rfl
  · exact trainGo_empty hs pick (x.zip y) hpe M.epochs 0 M

/-- The always-empty minibatch oracle, the choose_multiple draw over an
empty dataset. -/
def emptyPick : Nat → List (List ℚ × List ℚ) := fun _ => []

/-- Witness for train_empty_sample_spec on emptyM with an empty dataset. -/
theorem train_empty_sample_spec_witness :
    (∀ e, (emptyPick e).length
      = min emptyM.sampleSize ((([] : List (List ℚ)).zip ([] : List (List ℚ))).length)) ∧
    (((([] : List (List ℚ)).zip ([] : List (List ℚ))).length = 0 ∨ emptyM.sampleSize = 0)) ∧
    ((∀ e (M0 : Manifold) (acc : List ℚ),
        Manifold.samplePass stubHS M0 acc (emptyPick e) = (M0, acc)) ∧
      ∃ k, k ≤ emptyM.epochs ∧ (0 < emptyM.epochs → 1 ≤ k) ∧
        (Manifold.train stubHS emptyPick emptyM [] []).losses =
          emptyM.losses ++ List.replicate k ((0 : ℚ) / (0 : ℚ))) :=
  ⟨fun (_ : Nat) => rfl, Or.inl (by decide),
    train_empty_sample_spec stubHS emptyPick emptyM [] []
      (fun (_ : Nat) => rfl) (Or.inl (by decide))⟩

end Plural
